import Mathlib

/-!
Verification of the Pass-Join index (`passjoin/passjoin.py`).

The Python source is shallowly embedded below.  Words are lists of
characters; Python's arbitrary-precision integers are modelled by `Int`
where intermediate values can be negative (the window-bound arithmetic)
and by `Nat` where the source only ever handles non-negative values.
Python dictionaries of sets are observed only through membership, so the
inverted index is modelled by its lookup semantics; a reified
insertion-ordered association-list model is also provided for the
state/immutability claims, and an `Except`-based model captures Python
exception propagation.
-/

/-- A word: an immutable sequence of characters. -/
abbrev Word := List Char

/-- Python slice `w[start : start + len]` for `0 ≤ start` (the only case the
query code exercises: `min_start` is clamped at 0 and Python slices clamp
at the end of the string, exactly like `drop`/`take`). -/
def substr (w : Word) (start len : Nat) : Word :=
  (w.drop start).take len

/-- `Passjoin._compute_partitions` (T = `self._max_distance`, here a `Nat`;
the negative-threshold behaviour is modelled separately below). -/
def compute_partitions (T : Nat) (word_length : Nat) : List (Nat × Nat × Nat) :=
  let segments_number := T + 1
  let small_segments_length := word_length / segments_number
  let large_segments_length := small_segments_length + 1
  let large_segments_number := word_length - small_segments_length * segments_number
  let small_segments_number := segments_number - large_segments_number
  let small_partitions := (List.range small_segments_number).map
    (fun i => (i, i * small_segments_length, small_segments_length))
  let offset := small_segments_number * small_segments_length
  let large_partitions := (List.range large_segments_number).map
    (fun j => (small_segments_number + j, offset + j * large_segments_length,
               large_segments_length))
  small_partitions ++ large_partitions

/-- `Passjoin._generate_segments`. -/
def generate_segments (T : Nat) (word : Word) : List (Nat × Word) :=
  (compute_partitions T word.length).map (fun d => (d.1, substr word d.2.1 d.2.2))

/-- `Passjoin._candidates_word_length_range`:
`range(max(0, word_length - T), word_length + T + 1)`.  Over `Nat`,
truncated subtraction `word_length - T` equals `max(0, word_length - T)`. -/
def candidates_word_length_range (T : Nat) (word_length : Nat) : List Nat :=
  List.range' (word_length - T) ((word_length + T + 1) - (word_length - T))

/-- `Passjoin._minimum_start_position` (Python `max` of three ints). -/
def minimum_start_position (T : Nat) (length_delta : Int)
    (segment_index segment_position : Nat) : Int :=
  let start_left : Int := (segment_position : Int) - segment_index
  let start_right : Int :=
    (segment_position : Int) + length_delta - ((T : Int) - segment_index)
  let start_lower : Int := 0
  max (max start_left start_right) start_lower

/-- `Passjoin._maximum_start_position` (Python `min` of three ints). -/
def maximum_start_position (T : Nat) (length_delta : Int)
    (segment_index word_length segment_position segment_length : Nat) : Int :=
  let end_left : Int := (segment_position : Int) + segment_index
  let end_right : Int :=
    (segment_position : Int) + length_delta + ((T : Int) - segment_index)
  let end_upper : Int := (word_length : Int) - segment_length
  min (min end_left end_right) end_upper

/-- `Passjoin._substrings_selection`: probe substrings
`word[position : position + segment_length]` for every `position` in the
Python range `range(min_start, max_start + 1)`.  `min_start ≥ 0` always
(it is a `max` with 0), so positions are cast to `Nat` directly. -/
def substrings_selection (T : Nat) (word : Word) (candidate_length : Nat)
    (segment_index segment_position segment_length : Nat) : List Word :=
  let word_length := word.length
  let length_delta : Int := (word_length : Int) - (candidate_length : Int)
  let min_start := minimum_start_position T length_delta segment_index segment_position
  let max_start := maximum_start_position T length_delta segment_index word_length
    segment_position segment_length
  (List.range (max_start + 1 - min_start).toNat).map
    (fun k => substr word (min_start.toNat + k) segment_length)

/-- Lookup semantics of `inverted_index.get((partition_index, substring), [])`
for the per-length sub-index of `candidate_length`: the build inserts `word`
into `index[len(word)][key]` for every `key ∈ generate_segments(word)`, so the
set stored under `(L', key)` is exactly the set of vocabulary words of length
`L'` one of whose own segments is `key`. -/
def index_lookup (T : Nat) (words : List Word) (candidate_length : Nat)
    (key : Nat × Word) : List Word :=
  words.filter (fun c => c.length == candidate_length
    && decide (key ∈ generate_segments T c))

/-- The candidates examined for one `candidate_length` of the outer loop of
`get_word_variations`.  `self._inverted_index_by_length.get(candidate_length)`
is `None` exactly when no vocabulary word has that length (with `T ≥ 0` every
word generates `T + 1 ≥ 1` segment keys, so its length is always registered
by the build), in which case the `continue` contributes nothing. -/
def length_contribution (T : Nat) (words : List Word) (word : Word)
    (candidate_length : Nat) : List Word :=
  if words.any (fun c => c.length == candidate_length) then
    (compute_partitions T candidate_length).flatMap (fun d =>
      (substrings_selection T word candidate_length d.1 d.2.1 d.2.2).flatMap
        (fun sub => index_lookup T words candidate_length (d.1, sub)))
  else []

/-- All candidate words examined by `get_word_variations`, in traversal
order (the innermost `for candidate in candidates` loop, flattened). -/
def examined_candidates (T : Nat) (words : List Word) (word : Word) : List Word :=
  (candidates_word_length_range T word.length).flatMap
    (length_contribution T words word)

/-- `Passjoin.get_word_variations`.  The Python result is a `set`; it is
modelled by this list up to membership (duplicate discoveries across
descriptors collapse in the set, here they merely repeat in the list). -/
def get_word_variations (T : Nat) (distance : Word → Word → Nat)
    (words : List Word) (word : Word) : List Word :=
  (examined_candidates T words word).filter
    (fun candidate => decide (distance word candidate ≤ T))

/-- One row step of the standard unit-cost edit distance (structural helper
so that the distance is kernel-computable). -/
def edRow (x : Char) (f : Word → Nat) : Word → Nat
  | [] => f [] + 1
  | y :: ys =>
      if x = y then f ys
      else 1 + min (f ys) (min (edRow x f ys) (f (y :: ys)))

/-- Standard unit-cost (Levenshtein) edit distance: insertions, deletions
and substitutions, each of cost 1. -/
def editDistance : Word → Word → Nat
  | [], ys => ys.length
  | x :: xs, ys => edRow x (editDistance xs) ys

/-- An explicit edit script transforming `xs` into `ys` at cost `n`:
keep a character, substitute, delete from the source, insert into the
target.  `editDistance` is the minimum cost over all such scripts. -/
inductive EditScript : Word → Word → Nat → Prop
  | nil : EditScript [] [] 0
  | keep (a : Char) (xs ys : Word) (n : Nat) :
      EditScript xs ys n → EditScript (a :: xs) (a :: ys) n
  | subst (a b : Char) (xs ys : Word) (n : Nat) :
      EditScript xs ys n → EditScript (a :: xs) (b :: ys) (n + 1)
  | del (a : Char) (xs ys : Word) (n : Nat) :
      EditScript xs ys n → EditScript (a :: xs) ys (n + 1)
  | ins (b : Char) (xs ys : Word) (n : Nat) :
      EditScript xs ys n → EditScript xs (b :: ys) (n + 1)

/-- The list of the `T + 1` balanced segment lengths used by
`_compute_partitions` for a word of length `L`: `smallCount` copies of the
small length followed by `largeCount` copies of the large one. -/
def partition_lens (T L : Nat) : List Nat :=
  let s := L / (T + 1)
  let lc := L - s * (T + 1)
  let sc := (T + 1) - lc
  List.replicate sc s ++ List.replicate lc (s + 1)

/-- Descriptor `j` as §4.1 of the spec words it: `smallCount` descriptors of
length `smallLen` starting at `0, smallLen, 2·smallLen, …`, then `largeCount`
descriptors of length `smallLen + 1` continuing from offset
`smallCount · smallLen`, indices assigned in emission order. -/
def spec_descriptor (T L j : Nat) : Nat × Nat × Nat :=
  let smallLen := L / (T + 1)
  let largeCount := L - smallLen * (T + 1)
  let smallCount := (T + 1) - largeCount
  if j < smallCount then (j, j * smallLen, smallLen)
  else (j, smallCount * smallLen + (j - smallCount) * (smallLen + 1), smallLen + 1)

/-- Cutting a word into consecutive pieces of the given lengths. -/
def chop_slices : Word → List Nat → List Word
  | _, [] => []
  | c, l :: ls => c.take l :: chop_slices (c.drop l) ls

/-- The integer interval `[lo, hi]` as a list, Python's `range(lo, hi + 1)`. -/
def int_range (lo hi : Int) : List Int :=
  (List.range (hi + 1 - lo).toNat).map (fun (k : Nat) => lo + (k : Int))

/-- `get_word_variations` against a distance function that may raise:
Python exceptions are `Except` values, and the candidate traversal aborts
at the first raising call, in traversal order. -/
def get_word_variationsE {ε : Type} (T : Nat)
    (distance : Word → Word → Except ε Nat) (words : List Word) (word : Word) :
    Except ε (List Word) :=
  (examined_candidates T words word).foldlM
    (fun variations candidate => do
      let d ← distance word candidate
      pure (if d ≤ T then variations ++ [candidate] else variations)) []

/-- Python `set.add` on an insertion-ordered set. -/
def set_add (s : List Word) (w : Word) : List Word :=
  if w ∈ s then s else s ++ [w]

/-- `d[key].add(w)` on an insertion-ordered `defaultdict(set)`: a missing
key is created with an empty set first. -/
def sub_index_add {κ : Type} [DecidableEq κ] :
    List (κ × List Word) → κ → Word → List (κ × List Word)
  | [], k, w => [(k, set_add [] w)]
  | (k', s) :: rest, k, w =>
      if k' = k then (k', set_add s w) :: rest
      else (k', s) :: sub_index_add rest k w

/-- `inverted_index_by_length[length][key].add(word)` on the two-level
`defaultdict(lambda: defaultdict(set))`. -/
def index_add {κ : Type} [DecidableEq κ] :
    List (Nat × List (κ × List Word)) → Nat → κ → Word
      → List (Nat × List (κ × List Word))
  | [], L, k, w => [(L, sub_index_add [] k w)]
  | (L', s) :: rest, L, k, w =>
      if L' = L then (L', sub_index_add s k w) :: rest
      else (L', s) :: index_add rest L k w

/-- `Passjoin._build_inverted_index_by_length`, reified: Python dicts and
sets preserve insertion order, modelled by association lists. -/
def build_inverted_index_by_length (T : Nat) (words : List Word) :
    List (Nat × List ((Nat × Word) × List Word)) :=
  words.foldl (fun idx word =>
    (generate_segments T word).foldl
      (fun idx key => index_add idx word.length key word) idx) []

/-- Non-mutating dictionary read, Python `d.get(k)` (returns `None` on a
missing key and never inserts, unlike `defaultdict.__getitem__`). -/
def dict_get {κ α : Type} [DecidableEq κ] : List (κ × α) → κ → Option α
  | [], _ => none
  | (k', v) :: rest, k => if k' = k then some v else dict_get rest k

/-- `get_word_variations` over the reified index, with the index threaded
as explicit state: the query only ever reads it with `dict_get`
(`self._inverted_index_by_length.get(...)` and
`inverted_index.get((partition_index, substring), [])`). -/
def get_word_variations_st (T : Nat) (distance : Word → Word → Nat)
    (word : Word) (index0 : List (Nat × List ((Nat × Word) × List Word))) :
    List Word × List (Nat × List ((Nat × Word) × List Word)) :=
  (candidates_word_length_range T word.length).foldl
    (fun acc candidate_length =>
      match dict_get acc.2 candidate_length with
      | none => acc
      | some inverted_index =>
          (compute_partitions T candidate_length).foldl
            (fun acc2 d =>
              (substrings_selection T word candidate_length d.1 d.2.1 d.2.2).foldl
                (fun acc3 sub =>
                  (((dict_get inverted_index (d.1, sub)).getD []).foldl
                    (fun vs candidate =>
                      if distance word candidate ≤ T then set_add vs candidate
                      else vs) acc3.1, acc3.2))
                acc2)
            acc)
    ([], index0)

/-- Python error kinds reachable from construction: the interpreter's
`ZeroDivisionError` (a runtime fault), versus an input-validation error
such as `ValueError` — which the source never raises anywhere. -/
inductive PyError : Type
  | zeroDivisionError : PyError
  | valueError : PyError

/-- Python floor division `a // b`, raising `ZeroDivisionError` on `b = 0`
and flooring (like `Int.fdiv`) otherwise. -/
def py_floordiv (a b : Int) : Except PyError Int :=
  if b = 0 then Except.error PyError.zeroDivisionError else Except.ok (Int.fdiv a b)

/-- One bound of a Python slice `w[start : stop]`: negative indices count
from the end, then both are clamped into `[0, len]`. -/
def py_slice_bound (len : Nat) (i : Int) : Nat :=
  min (if i < 0 then (i + len).toNat else i.toNat) len

/-- Python slice `w[start : stop]` with full negative-index semantics. -/
def py_slice (w : Word) (start stop : Int) : Word :=
  (w.drop (py_slice_bound w.length start)).take
    (py_slice_bound w.length stop - py_slice_bound w.length start)

/-- `_compute_partitions` over Python integers, faithful for any
`max_distance` including negative ones: `word_length // segments_number`
raises `ZeroDivisionError` when `max_distance = -1`, and `range` of a
non-positive count is empty. -/
def compute_partitions_py (max_distance : Int) (word_length : Nat) :
    Except PyError (List (Int × Int × Int)) := do
  let segments_number := max_distance + 1
  let small_segments_length ← py_floordiv word_length segments_number
  let large_segments_length := small_segments_length + 1
  let large_segments_number := (word_length : Int)
    - small_segments_length * segments_number
  let small_segments_number := segments_number - large_segments_number
  let small_partitions := (List.range small_segments_number.toNat).map
    (fun i => ((i : Int), (i : Int) * small_segments_length,
      small_segments_length))
  let offset := small_segments_number * small_segments_length
  let large_partitions := (List.range large_segments_number.toNat).map
    (fun j => (small_segments_number + (j : Int),
      offset + (j : Int) * large_segments_length, large_segments_length))
  pure (small_partitions ++ large_partitions)

/-- `_generate_segments` over Python integers. -/
def generate_segments_py (max_distance : Int) (word : Word) :
    Except PyError (List (Int × Word)) := do
  let parts ← compute_partitions_py max_distance word.length
  pure (parts.map (fun d => (d.1, py_slice word d.2.1 (d.2.1 + d.2.2))))

/-- `Passjoin.__init__`: stores the parameters and immediately builds the
inverted index; an exception raised while partitioning any word propagates
out of construction.  No validation of `max_distance` happens anywhere. -/
def passjoin_init_py (max_distance : Int) (words : List Word) :
    Except PyError (List (Nat × List ((Int × Word) × List Word))) :=
  words.foldlM (fun idx word => do
    let keys ← generate_segments_py max_distance word
    pure (keys.foldl (fun idx key => index_add idx word.length key word) idx)) []

/-- The two-step read the query performs on the reified index:
`self._inverted_index_by_length.get(candidate_length)` followed by
`inverted_index.get((partition_index, substring), [])`. -/
def reified_lookup (idx : List (Nat × List ((Nat × Word) × List Word)))
    (L : Nat) (k : Nat × Word) : List Word :=
  match dict_get idx L with
  | none => []
  | some sub => (dict_get sub k).getD []

theorem editDistance_nil_left (ys : Word) : editDistance [] ys = ys.length := rfl

theorem editDistance_nil_right (xs : Word) : editDistance xs [] = xs.length := by
  induction xs with
  | nil => rfl
  | cons x xs ih => simp [editDistance, edRow, ih]

theorem editDistance_cons_cons (x y : Char) (xs ys : Word) :
    editDistance (x :: xs) (y :: ys) =
      if x = y then editDistance xs ys
      else 1 + min (editDistance xs ys)
        (min (editDistance (x :: xs) ys) (editDistance xs (y :: ys))) := by
  rfl

/-- An edit script for `xs → ys` realising the value of `editDistance`. -/
theorem EditScript.ofEd : ∀ xs ys : Word, EditScript xs ys (editDistance xs ys) := by
  intro xs
  induction xs with
  | nil =>
    intro ys
    induction ys with
    | nil => exact .nil
    | cons y ys ihy =>
      have h := EditScript.ins y [] ys (editDistance [] ys) ihy
      simpa [editDistance] using h
  | cons x xs ihx =>
    intro ys
    induction ys with
    | nil =>
      rw [editDistance_nil_right]
      have h := ihx []
      rw [editDistance_nil_right] at h
      exact EditScript.del x xs [] xs.length h
    | cons y ys ihy =>
      rw [editDistance_cons_cons]
      by_cases hxy : x = y
      · rw [if_pos hxy]
        subst hxy
        exact EditScript.keep x xs ys (editDistance xs ys) (ihx ys)
      · rw [if_neg hxy]
        rcases min_choice (editDistance xs ys)
            (min (editDistance (x :: xs) ys) (editDistance xs (y :: ys))) with h1 | h1
        · rw [h1]
          have h := EditScript.subst x y xs ys (editDistance xs ys) (ihx ys)
          simpa [Nat.add_comm] using h
        · rw [h1]
          rcases min_choice (editDistance (x :: xs) ys) (editDistance xs (y :: ys))
              with h2 | h2
          · rw [h2]
            have h := EditScript.ins y (x :: xs) ys (editDistance (x :: xs) ys) ihy
            simpa [Nat.add_comm] using h
          · rw [h2]
            have h := EditScript.del x xs (y :: ys) (editDistance xs (y :: ys))
              (ihx (y :: ys))
            simpa [Nat.add_comm] using h

/-- Removing the head of the target of a script costs at most one more. -/
theorem EditScript.dropTarget {xs ys : Word} {n : Nat} (h : EditScript xs ys n) :
    ∀ b bs, ys = b :: bs → ∃ m, m ≤ n + 1 ∧ EditScript xs bs m := by
  induction h with
  | nil => intro b bs heq; cases heq
  | keep a xs ys n h ih =>
    intro b bs heq
    cases heq
    exact ⟨n + 1, Nat.le_refl _, EditScript.del a xs ys n h⟩
  | subst a b' xs ys n h ih =>
    intro b bs heq
    cases heq
    exact ⟨n + 1, by omega, EditScript.del a xs ys n h⟩
  | del a xs ys n h ih =>
    intro b bs heq
    subst heq
    rcases ih b bs rfl with ⟨m, hm, hs⟩
    exact ⟨m + 1, by omega, EditScript.del a xs bs m hs⟩
  | ins b' xs ys n h ih =>
    intro b bs heq
    cases heq
    exact ⟨n, by omega, h⟩

/-- Removing the head of the source of a script costs at most one more. -/
theorem EditScript.dropSource {xs ys : Word} {n : Nat} (h : EditScript xs ys n) :
    ∀ a as, xs = a :: as → ∃ m, m ≤ n + 1 ∧ EditScript as ys m := by
  induction h with
  | nil => intro a as heq; cases heq
  | keep a' xs ys n h ih =>
    intro a as heq
    cases heq
    exact ⟨n + 1, Nat.le_refl _, EditScript.ins a' xs ys n h⟩
  | subst a' b xs ys n h ih =>
    intro a as heq
    cases heq
    exact ⟨n + 1, by omega, EditScript.ins b xs ys n h⟩
  | del a' xs ys n h ih =>
    intro a as heq
    cases heq
    exact ⟨n, by omega, h⟩
  | ins b xs ys n h ih =>
    intro a as heq
    subst heq
    rcases ih a as rfl with ⟨m, hm, hs⟩
    exact ⟨m + 1, by omega, EditScript.ins b as ys m hs⟩

/-- `editDistance` is a lower bound on the cost of any edit script. -/
theorem EditScript.toEd : ∀ (k : Nat) (xs ys : Word) (n : Nat),
    xs.length + ys.length ≤ k → EditScript xs ys n → editDistance xs ys ≤ n := by
  intro k
  induction k with
  | zero =>
    intro xs ys n hk h
    cases h with
    | nil => simp [editDistance]
    | keep a xs ys n h => simp at hk
    | subst a b xs ys n h => simp at hk
    | del a xs ys n h => simp at hk
    | ins b xs ys n h => simp at hk
  | succ k ihk =>
    intro xs ys n hk h
    cases h with
    | nil => simp [editDistance]
    | keep a xs ys n h =>
      rw [editDistance_cons_cons, if_pos rfl]
      exact ihk xs ys n (by simp at hk; omega) h
    | subst a b xs ys n h =>
      by_cases hab : a = b
      · subst hab
        rw [editDistance_cons_cons, if_pos rfl]
        have := ihk xs ys n (by simp at hk; omega) h
        omega
      · rw [editDistance_cons_cons, if_neg hab]
        have := ihk xs ys n (by simp at hk; omega) h
        have hmin : min (editDistance xs ys)
            (min (editDistance (a :: xs) ys) (editDistance xs (b :: ys)))
            ≤ editDistance xs ys := min_le_left _ _
        omega
    | del a xs ys n h =>
      cases ys with
      | nil =>
        have hx := ihk xs [] n
          (by simp only [List.length_nil, List.length_cons] at hk ⊢; omega) h
        rw [editDistance_nil_right] at hx
        rw [editDistance_nil_right]
        simp
        omega
      | cons b bs =>
        by_cases hab : a = b
        · subst hab
          rw [editDistance_cons_cons, if_pos rfl]
          rcases h.dropTarget a bs rfl with ⟨m, hm, hs⟩
          have := ihk xs bs m (by simp at hk ⊢; omega) hs
          omega
        · rw [editDistance_cons_cons, if_neg hab]
          have h3 := ihk xs (b :: bs) n (by simp at hk ⊢; omega) h
          have hmin : min (editDistance xs (b :: bs))
              (min (editDistance (a :: xs) (b :: bs)) (editDistance xs (b :: b :: bs)))
              ≤ editDistance xs (b :: bs) := min_le_left _ _
          -- the third branch of the `min` is `editDistance xs (y :: ys)` with
          -- `y :: ys = b :: bs`
          have hmin2 : min (editDistance xs bs)
              (min (editDistance (a :: xs) bs) (editDistance xs (b :: bs)))
              ≤ editDistance xs (b :: bs) :=
            le_trans (min_le_right _ _) (min_le_right _ _)
          omega
    | ins b xs ys n h =>
      cases xs with
      | nil =>
        have hx := ihk [] ys n
          (by simp only [List.length_nil, List.length_cons] at hk ⊢; omega) h
        rw [editDistance_nil_left] at hx
        rw [editDistance_nil_left]
        simp
        omega
      | cons a as =>
        by_cases hab : a = b
        · subst hab
          rw [editDistance_cons_cons, if_pos rfl]
          rcases h.dropSource a as rfl with ⟨m, hm, hs⟩
          have := ihk as ys m (by simp at hk ⊢; omega) hs
          omega
        · rw [editDistance_cons_cons, if_neg hab]
          have h3 := ihk (a :: as) ys n (by simp at hk ⊢; omega) h
          have hmin2 : min (editDistance as ys)
              (min (editDistance (a :: as) ys) (editDistance as (b :: ys)))
              ≤ editDistance (a :: as) ys :=
            le_trans (min_le_right _ _) (min_le_left _ _)
          omega

/-- The difference in lengths is a lower bound on the cost of a script. -/
theorem EditScript.length_bound {xs ys : Word} {n : Nat} (h : EditScript xs ys n) :
    (xs.length : Int) - ys.length ≤ n ∧ (ys.length : Int) - xs.length ≤ n := by
  induction h with
  | nil => simp
  | keep a xs ys n h ih => simp; omega
  | subst a b xs ys n h ih => simp; omega
  | del a xs ys n h ih => simp; omega
  | ins b xs ys n h ih => simp; omega

/-- The difference in lengths is a lower bound on the edit distance. -/
theorem editDistance_length_bound (xs ys : Word) :
    (xs.length : Int) - ys.length ≤ editDistance xs ys ∧
    (ys.length : Int) - xs.length ≤ editDistance xs ys :=
  (EditScript.ofEd xs ys).length_bound

/-- Words at edit distance 0 are equal. -/
theorem editDistance_eq_zero : ∀ {xs ys : Word}, editDistance xs ys = 0 → xs = ys := by
  intro xs
  induction xs with
  | nil =>
    intro ys h
    cases ys with
    | nil => rfl
    | cons y ys => simp [editDistance] at h
  | cons x xs ih =>
    intro ys h
    cases ys with
    | nil => rw [editDistance_nil_right] at h; simp at h
    | cons y ys =>
      rw [editDistance_cons_cons] at h
      by_cases hxy : x = y
      · rw [if_pos hxy] at h
        rw [hxy, ih h]
      · rw [if_neg hxy] at h
        omega

/-- Splitting the target of a script splits the source at bounded cost. -/
theorem EditScript.splitTarget {w t : Word} {n : Nat} (h : EditScript w t n) :
    ∀ c1 c2, t = c1 ++ c2 →
      ∃ w1 w2 n1 n2, w = w1 ++ w2 ∧ n1 + n2 ≤ n ∧
        EditScript w1 c1 n1 ∧ EditScript w2 c2 n2 := by
  induction h with
  | nil =>
    intro c1 c2 heq
    rcases List.append_eq_nil.mp heq.symm with ⟨h1, h2⟩
    subst h1; subst h2
    exact ⟨[], [], 0, 0, rfl, Nat.le_refl _, .nil, .nil⟩
  | keep a xs ys n h ih =>
    intro c1 c2 heq
    cases c1 with
    | nil =>
      simp at heq
      exact ⟨[], a :: xs, 0, n, rfl, by omega, .nil,
        heq ▸ EditScript.keep a xs ys n h⟩
    | cons c c1' =>
      simp at heq
      rcases heq with ⟨hc, hys⟩
      rcases ih c1' c2 hys with ⟨u1, u2, m1, m2, hw, hm, h1, h2⟩
      exact ⟨a :: u1, u2, m1, m2, by rw [hw]; rfl, hm,
        hc ▸ EditScript.keep a u1 c1' m1 h1, h2⟩
  | subst a b xs ys n h ih =>
    intro c1 c2 heq
    cases c1 with
    | nil =>
      simp at heq
      exact ⟨[], a :: xs, 0, n + 1, rfl, by omega, .nil,
        heq ▸ EditScript.subst a b xs ys n h⟩
    | cons c c1' =>
      simp at heq
      rcases heq with ⟨hc, hys⟩
      rcases ih c1' c2 hys with ⟨u1, u2, m1, m2, hw, hm, h1, h2⟩
      exact ⟨a :: u1, u2, m1 + 1, m2, by rw [hw]; rfl, by omega,
        hc ▸ EditScript.subst a c u1 c1' m1 h1, h2⟩
  | del a xs ys n h ih =>
    intro c1 c2 heq
    rcases ih c1 c2 heq with ⟨u1, u2, m1, m2, hw, hm, h1, h2⟩
    exact ⟨a :: u1, u2, m1 + 1, m2, by rw [hw]; rfl, by omega,
      EditScript.del a u1 c1 m1 h1, h2⟩
  | ins b xs ys n h ih =>
    intro c1 c2 heq
    cases c1 with
    | nil =>
      simp at heq
      exact ⟨[], xs, 0, n + 1, rfl, by omega, .nil,
        heq ▸ EditScript.ins b xs ys n h⟩
    | cons c c1' =>
      simp at heq
      rcases heq with ⟨hc, hys⟩
      rcases ih c1' c2 hys with ⟨u1, u2, m1, m2, hw, hm, h1, h2⟩
      exact ⟨u1, u2, m1 + 1, m2, hw, by omega,
        hc ▸ EditScript.ins c u1 c1' m1 h1, h2⟩

/-- Alignment splitting for the edit distance: any split of the target
induces a split of the source whose distances sum below the total. -/
theorem editDistance_split (w c1 c2 : Word) :
    ∃ w1 w2, w = w1 ++ w2 ∧
      editDistance w1 c1 + editDistance w2 c2 ≤ editDistance w (c1 ++ c2) := by
  rcases (EditScript.ofEd w (c1 ++ c2)).splitTarget c1 c2 rfl
    with ⟨w1, w2, n1, n2, hw, hn, h1, h2⟩
  refine ⟨w1, w2, hw, ?_⟩
  have e1 := EditScript.toEd (w1.length + c1.length) w1 c1 n1 (Nat.le_refl _) h1
  have e2 := EditScript.toEd (w2.length + c2.length) w2 c2 n2 (Nat.le_refl _) h2
  omega

theorem large_count_lt (T L : Nat) : L - L / (T + 1) * (T + 1) < T + 1 := by
  have h1 : L / (T + 1) * (T + 1) ≤ L := Nat.div_mul_le_self L (T + 1)
  have h2 : L % (T + 1) = L - (T + 1) * (L / (T + 1)) := Nat.mod_def L (T + 1)
  have h3 : L % (T + 1) < T + 1 := Nat.mod_lt L (Nat.succ_pos T)
  have h4 : (T + 1) * (L / (T + 1)) = L / (T + 1) * (T + 1) := Nat.mul_comm _ _
  omega

theorem partition_lens_length (T L : Nat) : (partition_lens T L).length = T + 1 := by
  have := large_count_lt T L
  simp [partition_lens]
  omega

theorem partition_lens_sum (T L : Nat) : (partition_lens T L).sum = L := by
  have h1 : L / (T + 1) * (T + 1) ≤ L := Nat.div_mul_le_self L (T + 1)
  have h2 := large_count_lt T L
  simp [partition_lens, List.sum_replicate, smul_eq_mul]
  set s := L / (T + 1) with hs
  set lc := L - s * (T + 1) with hlc
  have e1 : ((T + 1) - lc) * s = (T + 1) * s - lc * s := Nat.sub_mul _ _ _
  have e2 : lc * (s + 1) = lc * s + lc := by ring
  have e3 : lc * s ≤ (T + 1) * s := Nat.mul_le_mul_right s (by omega)
  have e4 : (T + 1) * s = s * (T + 1) := Nat.mul_comm _ _
  omega

theorem partition_lens_getD (T L i : Nat) (h : i < T + 1) :
    (partition_lens T L).getD i 0 =
      if i < (T + 1) - (L - L / (T + 1) * (T + 1)) then L / (T + 1)
      else L / (T + 1) + 1 := by
  have h2 := large_count_lt T L
  by_cases hi : i < (T + 1) - (L - L / (T + 1) * (T + 1))
  · rw [if_pos hi]
    have hlt : i < (List.replicate ((T + 1) - (L - L / (T + 1) * (T + 1)))
        (L / (T + 1))).length := by simpa using hi
    rw [partition_lens]
    rw [List.getD_eq_getElem _ 0 (by simp; omega)]
    rw [List.getElem_append_left hlt]
    simp
  · rw [if_neg hi]
    rw [partition_lens]
    rw [List.getD_eq_getElem _ 0 (by simp; omega)]
    rw [List.getElem_append_right (by simpa using hi)]
    simp

theorem partition_lens_take_sum (T L i : Nat) (hi : i ≤ T + 1) :
    ((partition_lens T L).take i).sum =
      if i ≤ (T + 1) - (L - L / (T + 1) * (T + 1)) then i * (L / (T + 1))
      else ((T + 1) - (L - L / (T + 1) * (T + 1))) * (L / (T + 1))
        + (i - ((T + 1) - (L - L / (T + 1) * (T + 1)))) * (L / (T + 1) + 1) := by
  have h2 := large_count_lt T L
  rw [partition_lens]
  rw [List.take_append_eq_append_take, List.take_replicate, List.take_replicate]
  rw [List.sum_append, List.sum_replicate, List.sum_replicate, smul_eq_mul, smul_eq_mul]
  simp only [List.length_replicate]
  set s := L / (T + 1)
  set lc := L - s * (T + 1)
  set sc := (T + 1) - lc
  by_cases hsc : i ≤ sc
  · rw [if_pos hsc]
    rw [Nat.min_eq_left hsc]
    have : i - sc = 0 := by omega
    rw [this]
    simp
  · rw [if_neg hsc]
    rw [Nat.min_eq_right (by omega)]
    have : min (i - sc) lc = i - sc := by omega
    rw [this]

theorem compute_partitions_eq_spec (T L : Nat) :
    compute_partitions T L = (List.range (T + 1)).map (spec_descriptor T L) := by
  have h2 := large_count_lt T L
  simp only [compute_partitions]
  set s := L / (T + 1) with hs
  set lc := L - s * (T + 1) with hlc
  set sc := (T + 1) - lc with hsc
  have hsplit : T + 1 = sc + lc := by omega
  rw [hsplit, List.range_add, List.map_append, List.map_map]
  congr 1
  · apply List.map_eq_map_iff.mpr
    intro j hj
    rw [List.mem_range] at hj
    simp only [spec_descriptor]
    rw [← hs, ← hlc, ← hsc]
    rw [if_pos (by omega)]
  · apply List.map_eq_map_iff.mpr
    intro j hj
    rw [List.mem_range] at hj
    simp only [Function.comp, spec_descriptor]
    rw [← hs, ← hlc, ← hsc]
    rw [if_neg (by omega)]
    have : sc + j - sc = j := by omega
    rw [this]

theorem compute_partitions_length (T L : Nat) :
    (compute_partitions T L).length = T + 1 := by
  rw [compute_partitions_eq_spec]
  simp

/-- The descriptor list carries exactly the balanced lengths, in order. -/
theorem compute_partitions_map_len (T L : Nat) :
    (compute_partitions T L).map (fun d => d.2.2) = partition_lens T L := by
  have h2 := large_count_lt T L
  rw [compute_partitions_eq_spec, partition_lens]
  set s := L / (T + 1) with hs
  set lc := L - s * (T + 1) with hlc
  set sc := (T + 1) - lc with hsc
  have hsplit : T + 1 = sc + lc := by omega
  rw [hsplit, List.range_add, List.map_append, List.map_append, List.map_map,
    List.map_map]
  congr 1
  · have : ∀ j ∈ List.range sc,
        ((fun d => d.2.2) ∘ spec_descriptor T L) j = (fun _ => s) j := by
      intro j hj
      rw [List.mem_range] at hj
      simp only [Function.comp, spec_descriptor]
      rw [← hs, ← hlc, ← hsc]
      rw [if_pos (by omega)]
    rw [List.map_eq_map_iff.mpr this, List.map_const', List.length_range]
  · rw [List.map_map]
    have : ∀ j ∈ List.range lc,
        (((fun d => d.2.2) ∘ spec_descriptor T L) ∘ fun x => sc + x) j
          = (fun _ => s + 1) j := by
      intro j hj
      rw [List.mem_range] at hj
      simp only [Function.comp, spec_descriptor]
      rw [← hs, ← hlc, ← hsc]
      rw [if_neg (by omega)]
    rw [List.map_eq_map_iff.mpr this, List.map_const', List.length_range]

/-- Descriptor `i` of `_compute_partitions`, expressed through the balanced
lengths: start offset is the sum of the first `i` lengths. -/
theorem descriptor_mem (T L i : Nat) (h : i < T + 1) :
    (i, ((partition_lens T L).take i).sum, (partition_lens T L).getD i 0)
      ∈ compute_partitions T L := by
  have h2 := large_count_lt T L
  rw [compute_partitions_eq_spec]
  rw [List.mem_map]
  refine ⟨i, List.mem_range.mpr h, ?_⟩
  rw [partition_lens_getD T L i h, partition_lens_take_sum T L i (by omega)]
  simp only [spec_descriptor]
  set s := L / (T + 1) with hs
  set lc := L - L / (T + 1) * (T + 1) with hlc
  set sc := (T + 1) - lc with hsc
  by_cases hi : i < sc
  · rw [if_pos hi, if_pos (by omega), if_pos hi]
  · rw [if_neg hi, if_neg hi]
    by_cases hieq : i ≤ sc
    · have : i = sc := by omega
      subst this
      rw [if_pos (le_refl _)]
      simp
    · rw [if_neg hieq]

theorem chop_slices_length (c : Word) (ls : List Nat) :
    (chop_slices c ls).length = ls.length := by
  induction ls generalizing c with
  | nil => rfl
  | cons l ls ih => simp [chop_slices, ih]

theorem chop_slices_flatten (ls : List Nat) : ∀ c : Word, ls.sum = c.length →
    (chop_slices c ls).flatten = c := by
  induction ls with
  | nil =>
    intro c h
    simp only [List.sum_nil] at h
    rw [List.length_eq_zero.mp h.symm]
    rfl
  | cons l ls ih =>
    intro c h
    simp only [List.sum_cons] at h
    show c.take l ++ (chop_slices (c.drop l) ls).flatten = c
    rw [ih (c.drop l) (by simp only [List.length_drop]; omega)]
    exact List.take_append_drop l c

theorem chop_slices_map_length (ls : List Nat) : ∀ c : Word, ls.sum = c.length →
    (chop_slices c ls).map List.length = ls := by
  induction ls with
  | nil => intro c h; rfl
  | cons l ls ih =>
    intro c h
    simp only [List.sum_cons] at h
    simp only [chop_slices, List.map_cons, List.length_take]
    rw [ih (c.drop l) (by simp only [List.length_drop]; omega)]
    have : min l c.length = l := by omega
    rw [this]

theorem chop_slices_getD (ls : List Nat) : ∀ (c : Word) (i : Nat), i < ls.length →
    (chop_slices c ls).getD i [] = substr c ((ls.take i).sum) (ls.getD i 0) := by
  induction ls with
  | nil => intro c i h; simp at h
  | cons l ls ih =>
    intro c i h
    cases i with
    | zero => simp [chop_slices, substr]
    | succ i =>
      simp only [chop_slices, List.getD_cons_succ]
      rw [ih (c.drop l) i (by simp at h; omega)]
      simp only [List.take_succ_cons, List.sum_cons, List.getD_cons_succ, substr]
      rw [List.drop_drop]

/-- Iterated alignment splitting over a non-empty list of target segments. -/
theorem editDistance_split_list : ∀ ss : List Word, ss ≠ [] → ∀ w : Word,
    ∃ ws : List Word, ws.length = ss.length ∧ w = ws.flatten ∧
      (List.zipWith editDistance ws ss).sum ≤ editDistance w ss.flatten := by
  intro ss
  induction ss with
  | nil => intro hne; exact absurd rfl hne
  | cons s rest ih =>
    intro _ w
    cases rest with
    | nil =>
      refine ⟨[w], rfl, by simp, ?_⟩
      simp
    | cons s2 rest2 =>
      rcases editDistance_split w s (s2 :: rest2).flatten with ⟨w1, w2, hw, hsum⟩
      rcases ih (by simp) w2 with ⟨ws', hlen, hw2, hsum'⟩
      refine ⟨w1 :: ws', by simp [hlen], by simp [hw, hw2], ?_⟩
      show editDistance w1 s + (List.zipWith editDistance ws' (s2 :: rest2)).sum
        ≤ editDistance w ((s :: s2 :: rest2).flatten)
      have hfl : (s :: s2 :: rest2).flatten = s ++ (s2 :: rest2).flatten := rfl
      rw [hfl]
      omega

/-- The walk/pigeonhole argument behind the multi-match-aware filter: if
`T + 1` aligned costs sum to at most `T`, some position `i` has cost 0 and
exactly `sum - T + i` cost strictly before it (hence at most `i` before and
at most `T - i` after). -/
theorem exists_balanced_zero (es : List Nat) (T : Nat)
    (hlen : es.length = T + 1) (hsum : es.sum ≤ T) :
    ∃ i, i < es.length ∧ es.getD i 0 = 0 ∧
      ((((es.take i).sum : Nat) : Int) = ((es.sum : Nat) : Int) - T + i) := by
  classical
  let P : Nat → Prop := fun i =>
    (((es.sum : Nat) : Int) - T ≤ (((es.take i).sum : Nat) : Int) - i)
  have hP0 : P 0 := by
    show ((es.sum : Nat) : Int) - T ≤ (((es.take 0).sum : Nat) : Int) - 0
    rw [List.take_zero]
    show ((es.sum : Nat) : Int) - T ≤ ((0 : Nat) : Int) - 0
    omega
  have hPi : P (Nat.findGreatest P (T + 1)) :=
    Nat.findGreatest_spec (Nat.zero_le (T + 1)) hP0
  set i := Nat.findGreatest P (T + 1) with hidef
  have hile : i ≤ T + 1 := Nat.findGreatest_le (T + 1)
  have hPtop : ¬ P (T + 1) := by
    show ¬ (((es.sum : Nat) : Int) - T ≤ (((es.take (T + 1)).sum : Nat) : Int) - (T + 1))
    rw [← hlen, List.take_length]
    omega
  have hine : i ≠ T + 1 := fun h => hPtop (h ▸ hPi)
  have hilt : i < es.length := by omega
  have hlt : Nat.findGreatest P (T + 1) < i + 1 := by rw [← hidef]; omega
  have hnPsucc : ¬ P (i + 1) := Nat.findGreatest_is_greatest hlt (by omega)
  have htakeNat : (es.take (i + 1)).sum = (es.take i).sum + es.getD i 0 := by
    have hg : es.getD i 0 = es.get ⟨i, hilt⟩ := by
      rw [List.getD_eq_getElem es 0 hilt, List.get_eq_getElem]
    rw [hg]
    exact List.sum_take_succ es i hilt
  have h1 : ((es.sum : Nat) : Int) - T ≤ (((es.take i).sum : Nat) : Int) - i := hPi
  have h2 : ¬ (((es.sum : Nat) : Int) - T
      ≤ (((es.take (i + 1)).sum : Nat) : Int) - (i + 1)) := hnPsucc
  push_neg at h2
  refine ⟨i, hilt, ?_, ?_⟩ <;> omega

/-- Total aligned length difference is bounded by total aligned cost. -/
theorem zip_length_diff_bound : ∀ ws ss : List Word, ws.length = ss.length →
    (((ws.map List.length).sum : Nat) : Int) - (((ss.map List.length).sum : Nat) : Int)
        ≤ (((List.zipWith editDistance ws ss).sum : Nat) : Int)
    ∧ (((ss.map List.length).sum : Nat) : Int) - (((ws.map List.length).sum : Nat) : Int)
        ≤ (((List.zipWith editDistance ws ss).sum : Nat) : Int) := by
  intro ws
  induction ws with
  | nil =>
    intro ss h
    cases ss with
    | nil => simp
    | cons b ss => simp at h
  | cons a ws ih =>
    intro ss h
    cases ss with
    | nil => simp at h
    | cons b ss =>
      have hab := editDistance_length_bound a b
      have hrest := ih ss (by simp at h; omega)
      show ((a.length + (ws.map List.length).sum : Nat) : Int)
          - ((b.length + (ss.map List.length).sum : Nat) : Int)
          ≤ ((editDistance a b + (List.zipWith editDistance ws ss).sum : Nat) : Int)
        ∧ ((b.length + (ss.map List.length).sum : Nat) : Int)
          - ((a.length + (ws.map List.length).sum : Nat) : Int)
          ≤ ((editDistance a b + (List.zipWith editDistance ws ss).sum : Nat) : Int)
      rw [Nat.cast_add, Nat.cast_add, Nat.cast_add]
      omega

/-- Prefix version of `zip_length_diff_bound`. -/
theorem zip_take_bound (ws ss : List Word) (h : ws.length = ss.length) (i : Nat) :
    ((((ws.take i).map List.length).sum : Nat) : Int)
        - ((((ss.take i).map List.length).sum : Nat) : Int)
        ≤ ((((List.zipWith editDistance ws ss).take i).sum : Nat) : Int)
    ∧ ((((ss.take i).map List.length).sum : Nat) : Int)
        - ((((ws.take i).map List.length).sum : Nat) : Int)
        ≤ ((((List.zipWith editDistance ws ss).take i).sum : Nat) : Int) := by
  rw [List.take_zipWith]
  exact zip_length_diff_bound (ws.take i) (ss.take i) (by simp [h])

/-- Suffix version of `zip_length_diff_bound`. -/
theorem zip_drop_bound (ws ss : List Word) (h : ws.length = ss.length) (i : Nat) :
    ((((ws.drop i).map List.length).sum : Nat) : Int)
        - ((((ss.drop i).map List.length).sum : Nat) : Int)
        ≤ ((((List.zipWith editDistance ws ss).drop i).sum : Nat) : Int)
    ∧ ((((ss.drop i).map List.length).sum : Nat) : Int)
        - ((((ws.drop i).map List.length).sum : Nat) : Int)
        ≤ ((((List.zipWith editDistance ws ss).drop i).sum : Nat) : Int) := by
  rw [List.drop_zipWith]
  exact zip_length_diff_bound (ws.drop i) (ss.drop i) (by simp [h])

/-- Any in-window start position yields its slice among the probes. -/
theorem mem_substrings_selection (T : Nat) (word : Word) (L' i p l pos : Nat)
    (hlo : minimum_start_position T ((word.length : Int) - L') i p ≤ (pos : Int))
    (hhi : (pos : Int) ≤ maximum_start_position T ((word.length : Int) - L')
      i word.length p l) :
    substr word pos l ∈ substrings_selection T word L' i p l := by
  have h0 : (0 : Int) ≤ minimum_start_position T ((word.length : Int) - L') i p :=
    le_max_right _ _
  simp only [substrings_selection]
  rw [List.mem_map]
  refine ⟨pos - (minimum_start_position T ((word.length : Int) - L') i p).toNat,
    ?_, ?_⟩
  · rw [List.mem_range]
    omega
  · congr 1
    omega

/-- Slicing a flattened list at the offset of one of its pieces recovers
that piece. -/
theorem flatten_slice_generic (A : List Word) (x : Word) (B : List Word) :
    substr (A ++ x :: B).flatten ((A.map List.length).sum) x.length = x := by
  rw [List.flatten_append]
  show ((A.flatten ++ (x :: B).flatten).drop ((A.map List.length).sum)).take x.length
    = x
  have hA : A.flatten.length = (A.map List.length).sum := List.length_flatten A
  rw [← hA, List.drop_left]
  show (x ++ B.flatten).take x.length = x
  rw [List.take_left]

/-- Length bounds admit the candidate length into the probed range. -/
theorem mem_candidates_range (T : Nat) (wl cl : Nat)
    (h1 : (wl : Int) - cl ≤ T) (h2 : (cl : Int) - wl ≤ T) :
    cl ∈ candidates_word_length_range T wl := by
  rw [candidates_word_length_range, List.mem_range'_1]
  omega

/-- The Pass-Join completeness core (the spec's §3 invariant): if
`editDistance word c ≤ T`, some descriptor `(i, p, l)` of
`compute_partitions T c.length` has the corresponding segment of `c`
occurring in `word` at a start position inside the multi-match-aware
window, hence among the generated probe substrings. -/
theorem segment_window_hit (T : Nat) (word c : Word)
    (hd : editDistance word c ≤ T) :
    ∃ d ∈ compute_partitions T c.length,
      ∃ sub ∈ substrings_selection T word c.length d.1 d.2.1 d.2.2,
        (d.1, sub) ∈ generate_segments T c := by
  have hplsum : (partition_lens T c.length).sum = c.length :=
    partition_lens_sum T c.length
  have hpllen : (partition_lens T c.length).length = T + 1 :=
    partition_lens_length T c.length
  have hssflat : (chop_slices c (partition_lens T c.length)).flatten = c :=
    chop_slices_flatten _ c hplsum
  have hsslen : (chop_slices c (partition_lens T c.length)).length = T + 1 := by
    rw [chop_slices_length, hpllen]
  have hssmaplen : (chop_slices c (partition_lens T c.length)).map List.length
      = partition_lens T c.length := chop_slices_map_length _ c hplsum
  have hssne : chop_slices c (partition_lens T c.length) ≠ [] := by
    intro h
    rw [h] at hsslen
    simp at hsslen
  rcases editDistance_split_list _ hssne word with ⟨ws, hwslen, hwflat, hsum⟩
  rw [hssflat] at hsum
  set ss := chop_slices c (partition_lens T c.length) with hssdef
  set pl := partition_lens T c.length with hpldef
  set es := List.zipWith editDistance ws ss with hesdef
  have heslen : es.length = T + 1 := by
    rw [hesdef, List.length_zipWith, hwslen, hsslen]
    omega
  have hessum : es.sum ≤ T := le_trans hsum hd
  rcases exists_balanced_zero es T heslen hessum with ⟨i, hies, hei0, hEi⟩
  have hiT : i < T + 1 := heslen ▸ hies
  have hwsl : ws.length = T + 1 := by rw [hwslen, hsslen]
  have hiws : i < ws.length := by omega
  have hiss : i < ss.length := by omega
  have hipl : i < pl.length := by omega
  have hesgetD : es.getD i 0 = editDistance (ws.getD i []) (ss.getD i []) := by
    rw [List.getD_eq_getElem es 0 hies, List.getD_eq_getElem ws [] hiws,
      List.getD_eq_getElem ss [] hiss]
    exact List.getElem_zipWith
  have hwi_eq_si : ws.getD i [] = ss.getD i [] :=
    editDistance_eq_zero (by rw [← hesgetD]; exact hei0)
  have hsi : ss.getD i [] = substr c ((pl.take i).sum) (pl.getD i 0) :=
    chop_slices_getD pl c i hipl
  have hsilen : (ss.getD i []).length = pl.getD i 0 := by
    rw [← hssmaplen]
    exact (List.getD_map ss [] List.length).symm
  have hwl : (ws.getD i []).length = (ss.getD i []).length := by rw [hwi_eq_si]
  have hwsdecomp : ws = ws.take i ++ ws.getD i [] :: ws.drop (i + 1) := by
    rw [List.getD_eq_getElem ws [] hiws]
    conv_lhs => rw [← List.take_append_drop i ws]
    rw [List.drop_eq_getElem_cons hiws]
  have hssdecomp : ss = ss.take i ++ ss.getD i [] :: ss.drop (i + 1) := by
    rw [List.getD_eq_getElem ss [] hiss]
    conv_lhs => rw [← List.take_append_drop i ss]
    rw [List.drop_eq_getElem_cons hiss]
  have hesdecomp : es = es.take i ++ es.getD i 0 :: es.drop (i + 1) := by
    rw [List.getD_eq_getElem es 0 hies]
    conv_lhs => rw [← List.take_append_drop i es]
    rw [List.drop_eq_getElem_cons hies]
  have hwsum : (ws.map List.length).sum
      = ((ws.take i).map List.length).sum + (ws.getD i []).length
        + ((ws.drop (i + 1)).map List.length).sum := by
    conv_lhs => rw [hwsdecomp]
    simp only [List.map_append, List.map_cons, List.sum_append, List.sum_cons]
    omega
  have hssum : (ss.map List.length).sum
      = ((ss.take i).map List.length).sum + (ss.getD i []).length
        + ((ss.drop (i + 1)).map List.length).sum := by
    conv_lhs => rw [hssdecomp]
    simp only [List.map_append, List.map_cons, List.sum_append, List.sum_cons]
    omega
  have hesum : es.sum = (es.take i).sum + es.getD i 0 + (es.drop (i + 1)).sum := by
    conv_lhs => rw [hesdecomp]
    simp only [List.sum_append, List.sum_cons]
    omega
  have hptake : ((ss.take i).map List.length).sum = (pl.take i).sum := by
    rw [List.map_take, hssmaplen]
  have hpdrop : ((ss.drop (i + 1)).map List.length).sum = (pl.drop (i + 1)).sum := by
    rw [List.map_drop, hssmaplen]
  have hwordlen : word.length = (ws.map List.length).sum := by
    rw [hwflat]
    exact List.length_flatten ws
  have hclen : c.length = (ss.map List.length).sum := by
    conv_lhs => rw [← hssflat]
    exact List.length_flatten ss
  have htb := zip_take_bound ws ss hwslen i
  have hdb := zip_drop_bound ws ss hwslen (i + 1)
  rw [← hesdef] at htb hdb
  have hlo : minimum_start_position T ((word.length : Int) - c.length) i
      ((pl.take i).sum) ≤ ((((ws.take i).map List.length).sum : Nat) : Int) := by
    simp only [minimum_start_position]
    refine max_le (max_le ?_ ?_) ?_
    · omega
    · omega
    · omega
  have hhi : ((((ws.take i).map List.length).sum : Nat) : Int)
      ≤ maximum_start_position T ((word.length : Int) - c.length) i word.length
        ((pl.take i).sum) (pl.getD i 0) := by
    simp only [maximum_start_position]
    refine le_min (le_min ?_ ?_) ?_
    · omega
    · omega
    · omega
  have hkey := flatten_slice_generic (ws.take i) (ws.getD i []) (ws.drop (i + 1))
  rw [← hwsdecomp] at hkey
  rw [← hwflat] at hkey
  rw [hwl, hsilen] at hkey
  refine ⟨(i, (pl.take i).sum, pl.getD i 0), descriptor_mem T c.length i hiT,
    substr word (((ws.take i).map List.length).sum) (pl.getD i 0), ?_, ?_⟩
  · exact mem_substrings_selection T word c.length i ((pl.take i).sum)
      (pl.getD i 0) (((ws.take i).map List.length).sum) hlo hhi
  · rw [generate_segments, List.mem_map]
    refine ⟨(i, (pl.take i).sum, pl.getD i 0), descriptor_mem T c.length i hiT, ?_⟩
    show (i, substr c ((pl.take i).sum) (pl.getD i 0))
      = (i, substr word (((ws.take i).map List.length).sum) (pl.getD i 0))
    rw [hkey, hwi_eq_si, hsi]

/-- Membership in the query result, characterised: `c` is returned exactly
when it passes the distance check, is a vocabulary word whose length lies in
the probed range, and some descriptor of its own partitioning generates a
probe substring equal to `c`'s segment under that descriptor's key. -/
theorem mem_get_word_variations_iff (T : Nat) (distance : Word → Word → Nat)
    (words : List Word) (word c : Word) :
    c ∈ get_word_variations T distance words word ↔
      distance word c ≤ T ∧ c ∈ words ∧
      c.length ∈ candidates_word_length_range T word.length ∧
      ∃ d ∈ compute_partitions T c.length,
        ∃ sub ∈ substrings_selection T word c.length d.1 d.2.1 d.2.2,
          (d.1, sub) ∈ generate_segments T c := by
  constructor
  · intro h
    rw [get_word_variations, List.mem_filter] at h
    rcases h with ⟨hex, hdist⟩
    rw [decide_eq_true_eq] at hdist
    rw [examined_candidates, List.mem_flatMap] at hex
    rcases hex with ⟨L', hL', hc⟩
    rw [length_contribution] at hc
    by_cases hany : words.any (fun x => x.length == L')
    · rw [if_pos hany] at hc
      rw [List.mem_flatMap] at hc
      rcases hc with ⟨d, hdmem, hc⟩
      rw [List.mem_flatMap] at hc
      rcases hc with ⟨sub, hsub, hc⟩
      rw [index_lookup, List.mem_filter] at hc
      rcases hc with ⟨hcw, hck⟩
      rw [Bool.and_eq_true, beq_iff_eq, decide_eq_true_eq] at hck
      rcases hck with ⟨hlen, hkey⟩
      subst hlen
      exact ⟨hdist, hcw, hL', d, hdmem, sub, hsub, hkey⟩
    · rw [if_neg hany] at hc
      cases hc
  · rintro ⟨hdist, hcw, hrange, d, hdmem, sub, hsub, hkey⟩
    rw [get_word_variations, List.mem_filter]
    refine ⟨?_, by rw [decide_eq_true_eq]; exact hdist⟩
    rw [examined_candidates, List.mem_flatMap]
    refine ⟨c.length, hrange, ?_⟩
    have hany : words.any (fun x => x.length == c.length) = true := by
      rw [List.any_eq_true]
      exact ⟨c, hcw, by simp⟩
    rw [length_contribution, if_pos hany, List.mem_flatMap]
    refine ⟨d, hdmem, ?_⟩
    rw [List.mem_flatMap]
    refine ⟨sub, hsub, ?_⟩
    rw [index_lookup, List.mem_filter]
    refine ⟨hcw, ?_⟩
    rw [Bool.and_eq_true, beq_iff_eq, decide_eq_true_eq]
    exact ⟨rfl, hkey⟩

/-- Claim C1 (recall completeness): with the standard unit-cost edit
distance as the injected distance function, every vocabulary word within
distance `T` of the query word is returned by `get_word_variations`. -/
theorem claim_C1_recall_completeness (T : Nat) (words : List Word)
    (word c : Word) (hc : c ∈ words) (hd : editDistance word c ≤ T) :
    c ∈ get_word_variations T editDistance words word := by
  rw [mem_get_word_variations_iff]
  have hlb := editDistance_length_bound word c
  exact ⟨hd, hc,
    mem_candidates_range T word.length c.length (by omega) (by omega),
    segment_window_hit T word c hd⟩

theorem claim_C1_witness :
    "girafe".toList ∈ ["girafe".toList, "lion".toList, "tiger".toList]
    ∧ editDistance "giraf".toList "girafe".toList ≤ 1
    ∧ "girafe".toList ∈ get_word_variations 1 editDistance
        ["girafe".toList, "lion".toList, "tiger".toList] "giraf".toList :=
  ⟨by decide, by decide,
    claim_C1_recall_completeness 1
      ["girafe".toList, "lion".toList, "tiger".toList]
      "giraf".toList "girafe".toList (by decide) (by decide)⟩

/-- Claim C2 (no false positives, vocabulary membership): every returned
word passes the final distance check and comes from the vocabulary. -/
theorem claim_C2_no_false_positives (T : Nat) (distance : Word → Word → Nat)
    (words : List Word) (word c : Word)
    (h : c ∈ get_word_variations T distance words word) :
    distance word c ≤ T ∧ c ∈ words := by
  rw [mem_get_word_variations_iff] at h
  exact ⟨h.1, h.2.1⟩

theorem claim_C2_witness :
    editDistance "girafe".toList "girafe".toList ≤ 0
    ∧ "girafe".toList ∈ ["girafe".toList, "lion".toList, "tiger".toList] :=
  claim_C2_no_false_positives 0 editDistance
    ["girafe".toList, "lion".toList, "tiger".toList]
    "girafe".toList "girafe".toList (by decide)

/-- Claim C3 (multi-match-aware window formulas): for query word `word`,
candidate length `L'` with `Δ = |word| - L'` and descriptor `(i, p, l)`,
the probe substrings are exactly `word[pos : pos + l]` for `pos` over the
integer interval from `max(p - i, p + Δ - (T - i), 0)` to
`min(p + i, p + Δ + (T - i), |word| - l)`, and none when that lower bound
exceeds that upper bound. -/
theorem claim_C3_window_formulas (T : Nat) (word : Word) (L' i p l : Nat) :
    substrings_selection T word L' i p l
      = (int_range
          (max (max ((p : Int) - i)
            ((p : Int) + ((word.length : Int) - L') - ((T : Int) - i))) 0)
          (min (min ((p : Int) + i)
            ((p : Int) + ((word.length : Int) - L') + ((T : Int) - i)))
            ((word.length : Int) - l))).map
          (fun pos => substr word pos.toNat l)
    ∧ (min (min ((p : Int) + i)
          ((p : Int) + ((word.length : Int) - L') + ((T : Int) - i)))
          ((word.length : Int) - l)
        < max (max ((p : Int) - i)
            ((p : Int) + ((word.length : Int) - L') - ((T : Int) - i))) 0
        → substrings_selection T word L' i p l = []) := by
  have h0 : (0 : Int) ≤ max (max ((p : Int) - i)
      ((p : Int) + ((word.length : Int) - L') - ((T : Int) - i))) 0 :=
    le_max_right _ _
  constructor
  · simp only [substrings_selection, minimum_start_position,
      maximum_start_position, int_range, List.map_map]
    apply List.map_eq_map_iff.mpr
    intro k hk
    rw [List.mem_range] at hk
    simp only [Function.comp]
    congr 1
    omega
  · intro hlt
    simp only [substrings_selection, minimum_start_position,
      maximum_start_position]
    have hz : ((min (min ((p : Int) + i)
        ((p : Int) + ((word.length : Int) - L') + ((T : Int) - i)))
        ((word.length : Int) - l) + 1
        - max (max ((p : Int) - i)
          ((p : Int) + ((word.length : Int) - L') - ((T : Int) - i))) 0)).toNat
        = 0 := by omega
    rw [hz]
    rfl

theorem claim_C3_witness :
    min (min ((0 : Int) + 0) ((0 : Int) + (((("ab".toList : Word).length : Int)) - 2) + ((1 : Int) - 0)))
        ((("ab".toList : Word).length : Int) - 5)
      < max (max ((0 : Int) - 0) ((0 : Int) + ((("ab".toList : Word).length : Int) - 2) - ((1 : Int) - 0))) 0
    ∧ substrings_selection 1 "ab".toList 2 0 0 5 = [] :=
  ⟨by decide,
    (claim_C3_window_formulas 1 "ab".toList 2 0 0 5).2 (by decide)⟩

theorem compute_partitions_getD (T L j : Nat) (h : j < T + 1) :
    (compute_partitions T L).getD j (0, 0, 0) = spec_descriptor T L j := by
  rw [compute_partitions_eq_spec]
  rw [List.getD_eq_getElem _ _ (by simp only [List.length_map, List.length_range]; omega)]
  rw [List.getElem_map]
  congr 1
  simp

/-- Claim C4 (segment partitioner correctness): `_compute_partitions`
emits exactly the `T + 1` descriptors of the spec's construction, indices
`0..T` in emission order, the balanced small-then-large lengths, contiguous
starts beginning at 0, and lengths summing to `L`. -/
theorem claim_C4_partitioner (T L : Nat) :
    compute_partitions T L = (List.range (T + 1)).map (spec_descriptor T L)
    ∧ (compute_partitions T L).length = T + 1
    ∧ (compute_partitions T L).map (fun d => d.2.2)
        = List.replicate ((T + 1) - (L - L / (T + 1) * (T + 1))) (L / (T + 1))
          ++ List.replicate (L - L / (T + 1) * (T + 1)) (L / (T + 1) + 1)
    ∧ ((compute_partitions T L).map (fun d => d.2.2)).sum = L
    ∧ ((compute_partitions T L).getD 0 (0, 0, 0)).2.1 = 0
    ∧ (∀ j, j + 1 < T + 1 →
        ((compute_partitions T L).getD (j + 1) (0, 0, 0)).2.1
          = ((compute_partitions T L).getD j (0, 0, 0)).2.1
            + ((compute_partitions T L).getD j (0, 0, 0)).2.2) := by
  have h2 := large_count_lt T L
  refine ⟨compute_partitions_eq_spec T L, compute_partitions_length T L,
    compute_partitions_map_len T L, ?_, ?_, ?_⟩
  · rw [compute_partitions_map_len T L, partition_lens_sum T L]
  · rw [compute_partitions_getD T L 0 (by omega)]
    simp only [spec_descriptor]
    rw [if_pos (by omega)]
    simp
  · intro j hj
    rw [compute_partitions_getD T L (j + 1) hj,
      compute_partitions_getD T L j (by omega)]
    simp only [spec_descriptor]
    set s := L / (T + 1) with hs
    set lc := L - L / (T + 1) * (T + 1) with hlc
    set sc := (T + 1) - lc with hsc
    by_cases hj1 : j + 1 < sc
    · rw [if_pos hj1, if_pos (by omega)]
      show (j + 1) * s = j * s + s
      rw [Nat.succ_mul]
    · rw [if_neg hj1]
      by_cases hjlt : j < sc
      · rw [if_pos hjlt]
        have hje : j + 1 = sc := by omega
        show sc * s + (j + 1 - sc) * (s + 1) = j * s + s
        rw [← hje]
        simp [Nat.succ_mul]
      · rw [if_neg hjlt]
        show sc * s + (j + 1 - sc) * (s + 1) = sc * s + (j - sc) * (s + 1) + (s + 1)
        have : j + 1 - sc = (j - sc) + 1 := by omega
        rw [this, Nat.succ_mul]
        omega

theorem claim_C4_witness :
    compute_partitions 1 5 = (List.range 2).map (spec_descriptor 1 5)
    ∧ (compute_partitions 1 5).length = 2
    ∧ (compute_partitions 1 5).map (fun d => d.2.2)
        = List.replicate ((1 + 1) - (5 - 5 / (1 + 1) * (1 + 1))) (5 / (1 + 1))
          ++ List.replicate (5 - 5 / (1 + 1) * (1 + 1)) (5 / (1 + 1) + 1)
    ∧ ((compute_partitions 1 5).map (fun d => d.2.2)).sum = 5
    ∧ ((compute_partitions 1 5).getD 0 (0, 0, 0)).2.1 = 0
    ∧ (∀ j, j + 1 < 1 + 1 →
        ((compute_partitions 1 5).getD (j + 1) (0, 0, 0)).2.1
          = ((compute_partitions 1 5).getD j (0, 0, 0)).2.1
            + ((compute_partitions 1 5).getD j (0, 0, 0)).2.2) :=
  claim_C4_partitioner 1 5

/-- Claim C5 (candidate length restriction): the query iterates exactly
over the integer interval `[max(0, |word| - T), |word| + T]` of candidate
lengths, and a length with no entry in the inverted index (no vocabulary
word of that length) contributes nothing. -/
theorem claim_C5_candidate_lengths (T : Nat) (distance : Word → Word → Nat)
    (words : List Word) (word : Word) :
    (∀ L' : Nat, L' ∈ candidates_word_length_range T word.length ↔
      (max 0 ((word.length : Int) - T) ≤ L' ∧ (L' : Int) ≤ word.length + T))
    ∧ get_word_variations T distance words word
        = ((candidates_word_length_range T word.length).flatMap
            (length_contribution T words word)).filter
            (fun candidate => decide (distance word candidate ≤ T))
    ∧ (∀ L', (∀ c ∈ words, c.length ≠ L') →
        length_contribution T words word L' = []) := by
  refine ⟨?_, rfl, ?_⟩
  · intro L'
    rw [candidates_word_length_range, List.mem_range'_1]
    omega
  · intro L' h
    have hany : words.any (fun x => x.length == L') = false := by
      rw [List.any_eq_false]
      intro x hx
      simp [h x hx]
    rw [length_contribution, hany]
    rfl

theorem claim_C5_witness :
    ((7 : Nat) ∈ candidates_word_length_range 2 "giraf".toList.length ↔
      (max 0 (("giraf".toList.length : Int) - 2) ≤ 7
        ∧ ((7 : Nat) : Int) ≤ "giraf".toList.length + 2))
    ∧ length_contribution 2 ["girafe".toList] "giraf".toList 3 = [] :=
  ⟨(claim_C5_candidate_lengths 2 editDistance ["girafe".toList]
      "giraf".toList).1 7,
   (claim_C5_candidate_lengths 2 editDistance ["girafe".toList]
      "giraf".toList).2.2 3 (by decide)⟩

/-- Claim C8 (construction-order and duplicate insensitivity): vocabularies
with the same underlying set of words give indexes answering every query
with the same result set. -/
theorem claim_C8_order_duplicate_insensitive (T : Nat)
    (distance : Word → Word → Nat) (V1 V2 : List Word)
    (h : ∀ x, x ∈ V1 ↔ x ∈ V2) (word c : Word) :
    c ∈ get_word_variations T distance V1 word
      ↔ c ∈ get_word_variations T distance V2 word := by
  rw [mem_get_word_variations_iff, mem_get_word_variations_iff, h c]

theorem claim_C8_witness :
    "lion".toList ∈ get_word_variations 1 editDistance
        ["lion".toList, "girafe".toList] "lio".toList
      ↔ "lion".toList ∈ get_word_variations 1 editDistance
        ["girafe".toList, "lion".toList, "lion".toList] "lio".toList :=
  claim_C8_order_duplicate_insensitive 1 editDistance
    ["lion".toList, "girafe".toList]
    ["girafe".toList, "lion".toList, "lion".toList]
    (by intro x; constructor <;> intro hx <;> simp at hx ⊢ <;> tauto)
    "lio".toList "lion".toList

/-- Claim C10 (per-descriptor probe bound): a descriptor with index
`i ≤ T` generates at most `min(2i, 2(T - i)) + 1 ≤ T + 1` probe
substrings. -/
theorem claim_C10_probe_bound (T : Nat) (word : Word) (L' i p l : Nat)
    (h : i ≤ T) :
    (substrings_selection T word L' i p l).length
      ≤ min (2 * i) (2 * (T - i)) + 1
    ∧ (substrings_selection T word L' i p l).length ≤ T + 1 := by
  have key : (substrings_selection T word L' i p l).length
      ≤ min (2 * i) (2 * (T - i)) + 1 := by
    simp only [substrings_selection, minimum_start_position,
      maximum_start_position, List.length_map, List.length_range]
    omega
  exact ⟨key, by omega⟩

theorem claim_C10_witness :
    (0 : Nat) ≤ 2
    ∧ (substrings_selection 2 "girafe".toList 5 0 0 2).length
        ≤ min (2 * 0) (2 * (2 - 0)) + 1
    ∧ (substrings_selection 2 "girafe".toList 5 0 0 2).length ≤ 2 + 1 :=
  ⟨by decide, claim_C10_probe_bound 2 "girafe".toList 5 0 0 2 (by decide)⟩

theorem foldl_preserves_snd {α β σ : Type} (f : β × σ → α → β × σ)
    (hf : ∀ a x, (f a x).2 = a.2) :
    ∀ (l : List α) (a : β × σ), (List.foldl f a l).2 = a.2 := by
  intro l
  induction l with
  | nil => intro a; rfl
  | cons x xs ih =>
    intro a
    rw [List.foldl_cons, ih, hf]

/-- Claim C7 (index immutability under queries): running
`get_word_variations` over the reified index built by construction returns
the index state exactly as it was — every access is a `dict_get` read, and
no entry is added, removed or mutated. -/
theorem claim_C7_query_preserves_index (T : Nat)
    (distance : Word → Word → Nat) (words : List Word) (word : Word) :
    (get_word_variations_st T distance word
      (build_inverted_index_by_length T words)).2
      = build_inverted_index_by_length T words := by
  rw [get_word_variations_st]
  apply foldl_preserves_snd
  intro a x
  cases hdg : dict_get a.2 x with
  | none => simp only [hdg]
  | some inv =>
    simp only [hdg]
    apply foldl_preserves_snd
    intro a2 d
    apply foldl_preserves_snd
    intro a3 sub
    rfl

theorem foldlM_distance_error {ε : Type} (T : Nat)
    (distance : Word → Word → Except ε Nat) (word : Word) :
    ∀ (l : List Word) (acc : List Word),
      (∃ c ∈ l, ∃ e, distance word c = Except.error e) →
      ∃ e, l.foldlM (fun variations candidate => do
          let d ← distance word candidate
          pure (if d ≤ T then variations ++ [candidate] else variations)) acc
        = Except.error e := by
  intro l
  induction l with
  | nil =>
    intro acc h
    rcases h with ⟨c, hc, _⟩
    cases hc
  | cons x xs ih =>
    intro acc h
    show ∃ e, (do
        let d ← distance word x
        pure (if d ≤ T then acc ++ [x] else acc) : Except ε (List Word)) >>=
      (fun acc2 => xs.foldlM _ acc2) = Except.error e
    cases hdx : distance word x with
    | error e => exact ⟨e, rfl⟩
    | ok d =>
      rcases h with ⟨c, hc, e, hce⟩
      rcases List.mem_cons.mp hc with rfl | hmem
      · rw [hdx] at hce
        cases hce
      · exact ih _ ⟨c, hmem, e, hce⟩

/-- Claim C9 (collaborator-failure propagation): if the injected distance
function raises on any candidate examined during the query, the query
itself raises — it neither skips the candidate nor returns a partial
result set. -/
theorem claim_C9_error_propagation {ε : Type} (T : Nat)
    (distance : Word → Word → Except ε Nat) (words : List Word) (word : Word)
    (h : ∃ c ∈ examined_candidates T words word,
      ∃ e, distance word c = Except.error e) :
    ∃ e, get_word_variationsE T distance words word = Except.error e :=
  foldlM_distance_error T distance word (examined_candidates T words word) [] h

theorem claim_C9_witness :
    (∃ c ∈ examined_candidates 0 [['a']] ['a'], ∃ e : Nat,
      (fun _ _ : Word => (Except.error 7 : Except Nat Nat)) ['a'] c
        = Except.error e)
    ∧ ∃ e, get_word_variationsE 0
        (fun _ _ : Word => (Except.error 7 : Except Nat Nat)) [['a']] ['a']
        = Except.error e :=
  ⟨⟨['a'], by decide, 7, rfl⟩,
    claim_C9_error_propagation 0 (fun _ _ => Except.error 7) [['a']] ['a']
      ⟨['a'], by decide, 7, rfl⟩⟩

/-- Claim C6 evidence: a negative `max_distance` is not rejected by
construction.  `max_distance = -2` builds successfully (yielding an index
with no keys at all), and `max_distance = -1` raises the interpreter's
`ZeroDivisionError` from `word_length // 0` — a runtime fault, not an
input-validation error.  The `valueError` constructor is unreachable: the
source performs no validation. -/
theorem claim_C6_negative_threshold :
    passjoin_init_py (-2) ["ab".toList] = Except.ok []
    ∧ passjoin_init_py (-1) ["ab".toList]
        = Except.error PyError.zeroDivisionError :=
  ⟨rfl, rfl⟩

theorem set_add_mem (s : List Word) (w x : Word) :
    x ∈ set_add s w ↔ x ∈ s ∨ x = w := by
  rw [set_add]
  by_cases h : w ∈ s
  · rw [if_pos h]
    constructor
    · exact fun hx => Or.inl hx
    · rintro (hx | rfl)
      · exact hx
      · exact h
  · rw [if_neg h]
    simp

theorem dict_get_sub_index_add_same (sub : List ((Nat × Word) × List Word))
    (k : Nat × Word) (w : Word) :
    dict_get (sub_index_add sub k w) k
      = some (set_add ((dict_get sub k).getD []) w) := by
  induction sub with
  | nil => simp [sub_index_add, dict_get]
  | cons e rest ih =>
    rcases e with ⟨k', s⟩
    by_cases h : k' = k
    · subst h
      simp [sub_index_add, dict_get]
    · simp only [sub_index_add, if_neg h, dict_get]
      exact ih

theorem dict_get_sub_index_add_ne (sub : List ((Nat × Word) × List Word))
    (k k' : Nat × Word) (w : Word) (h : k' ≠ k) :
    dict_get (sub_index_add sub k w) k' = dict_get sub k' := by
  induction sub with
  | nil =>
    simp only [sub_index_add, dict_get]
    rw [if_neg (fun he => h he.symm)]
  | cons e rest ih =>
    rcases e with ⟨k0, s⟩
    by_cases h0 : k0 = k
    · subst h0
      simp only [sub_index_add, if_pos rfl, dict_get]
      rw [if_neg (fun he => h he.symm), if_neg (fun he => h he.symm)]
    · simp only [sub_index_add, if_neg h0, dict_get]
      by_cases h1 : k0 = k'
      · rw [if_pos h1, if_pos h1]
      · rw [if_neg h1, if_neg h1]
        exact ih

theorem dict_get_index_add_same (idx : List (Nat × List ((Nat × Word) × List Word)))
    (L : Nat) (k : Nat × Word) (w : Word) :
    dict_get (index_add idx L k w) L
      = some (sub_index_add ((dict_get idx L).getD []) k w) := by
  induction idx with
  | nil => simp [index_add, dict_get]
  | cons e rest ih =>
    rcases e with ⟨L', s⟩
    by_cases h : L' = L
    · subst h
      simp [index_add, dict_get]
    · simp only [index_add, if_neg h, dict_get]
      exact ih

theorem dict_get_index_add_ne (idx : List (Nat × List ((Nat × Word) × List Word)))
    (L L' : Nat) (k : Nat × Word) (w : Word) (h : L' ≠ L) :
    dict_get (index_add idx L k w) L' = dict_get idx L' := by
  induction idx with
  | nil =>
    simp only [index_add, dict_get]
    rw [if_neg (fun he => h he.symm)]
  | cons e rest ih =>
    rcases e with ⟨L0, s⟩
    by_cases h0 : L0 = L
    · subst h0
      simp only [index_add, if_pos rfl, dict_get]
      rw [if_neg (fun he => h he.symm), if_neg (fun he => h he.symm)]
    · simp only [index_add, if_neg h0, dict_get]
      by_cases h1 : L0 = L'
      · rw [if_pos h1, if_pos h1]
      · rw [if_neg h1, if_neg h1]
        exact ih

theorem reified_lookup_defaulted (idx : List (Nat × List ((Nat × Word) × List Word)))
    (L : Nat) (k : Nat × Word) :
    (dict_get ((dict_get idx L).getD []) k).getD [] = reified_lookup idx L k := by
  cases hg : dict_get idx L with
  | none => simp [reified_lookup, hg, dict_get]
  | some sub => simp [reified_lookup, hg]

theorem mem_reified_index_add (idx : List (Nat × List ((Nat × Word) × List Word)))
    (L0 : Nat) (k0 : Nat × Word) (w0 : Word) (L : Nat) (k : Nat × Word)
    (c : Word) :
    c ∈ reified_lookup (index_add idx L0 k0 w0) L k
      ↔ (c ∈ reified_lookup idx L k ∨ (L = L0 ∧ k = k0 ∧ c = w0)) := by
  by_cases hL : L = L0
  · subst hL
    rw [reified_lookup]
    rw [dict_get_index_add_same]
    show c ∈ (dict_get (sub_index_add ((dict_get idx L).getD []) k0 w0) k).getD []
      ↔ _
    by_cases hk : k = k0
    · subst hk
      rw [dict_get_sub_index_add_same]
      show c ∈ set_add ((dict_get ((dict_get idx L).getD []) k).getD []) w0 ↔ _
      rw [set_add_mem, reified_lookup_defaulted]
      tauto
    · rw [dict_get_sub_index_add_ne _ _ _ _ hk, reified_lookup_defaulted]
      tauto
  · rw [reified_lookup, dict_get_index_add_ne _ _ _ _ _ hL]
    rw [← reified_lookup]
    tauto

theorem mem_reified_keys_fold (L0 : Nat) (w0 : Word) :
    ∀ (keys : List (Nat × Word)) (idx : List (Nat × List ((Nat × Word) × List Word)))
      (L : Nat) (k : Nat × Word) (c : Word),
      c ∈ reified_lookup
          (keys.foldl (fun idx key => index_add idx L0 key w0) idx) L k
        ↔ (c ∈ reified_lookup idx L k ∨ (L = L0 ∧ k ∈ keys ∧ c = w0)) := by
  intro keys
  induction keys with
  | nil => intro idx L k c; simp
  | cons key keys ih =>
    intro idx L k c
    rw [List.foldl_cons, ih, mem_reified_index_add]
    simp only [List.mem_cons]
    tauto

theorem mem_reified_words_fold (T : Nat) :
    ∀ (ws : List Word) (idx : List (Nat × List ((Nat × Word) × List Word)))
      (L : Nat) (k : Nat × Word) (c : Word),
      c ∈ reified_lookup (ws.foldl (fun idx word =>
          (generate_segments T word).foldl
            (fun idx key => index_add idx word.length key word) idx) idx) L k
        ↔ (c ∈ reified_lookup idx L k
            ∨ ∃ w ∈ ws, L = w.length ∧ k ∈ generate_segments T w ∧ c = w) := by
  intro ws
  induction ws with
  | nil => intro idx L k c; simp
  | cons w ws ih =>
    intro idx L k c
    rw [List.foldl_cons, ih, mem_reified_keys_fold]
    simp only [List.mem_cons]
    constructor
    · rintro ((h | ⟨h1, h2, h3⟩) | ⟨x, hx, h1, h2, h3⟩)
      · exact Or.inl h
      · exact Or.inr ⟨w, Or.inl rfl, h1, h2, h3⟩
      · exact Or.inr ⟨x, Or.inr hx, h1, h2, h3⟩
    · rintro (h | ⟨x, (rfl | hx), h1, h2, h3⟩)
      · exact Or.inl (Or.inl h)
      · exact Or.inl (Or.inr ⟨h1, h2, h3⟩)
      · exact Or.inr ⟨x, hx, h1, h2, h3⟩

theorem generate_segments_ne_nil (T : Nat) (w : Word) :
    generate_segments T w ≠ [] := by
  have h : (generate_segments T w).length = T + 1 := by
    rw [generate_segments, List.length_map, compute_partitions_length]
  intro hnil
  rw [hnil] at h
  simp at h

theorem isSome_keys_fold (L0 : Nat) (w0 : Word) :
    ∀ (keys : List (Nat × Word)) (idx : List (Nat × List ((Nat × Word) × List Word)))
      (L : Nat),
      ((dict_get (keys.foldl (fun idx key => index_add idx L0 key w0) idx) L).isSome
          = true)
        ↔ ((dict_get idx L).isSome = true ∨ (L = L0 ∧ keys ≠ [])) := by
  intro keys
  induction keys with
  | nil => intro idx L; simp
  | cons key keys ih =>
    intro idx L
    rw [List.foldl_cons, ih]
    by_cases h : L = L0
    · subst h
      rw [dict_get_index_add_same]
      simp
    · rw [dict_get_index_add_ne _ _ _ _ _ h]
      simp [h]

theorem isSome_words_fold (T : Nat) :
    ∀ (ws : List Word) (idx : List (Nat × List ((Nat × Word) × List Word)))
      (L : Nat),
      ((dict_get (ws.foldl (fun idx word =>
          (generate_segments T word).foldl
            (fun idx key => index_add idx word.length key word) idx) idx) L).isSome
          = true)
        ↔ ((dict_get idx L).isSome = true ∨ ∃ w ∈ ws, w.length = L) := by
  intro ws
  induction ws with
  | nil => intro idx L; simp
  | cons w ws ih =>
    intro idx L
    rw [List.foldl_cons, ih, isSome_keys_fold]
    simp only [List.mem_cons, generate_segments_ne_nil, ne_eq,
      not_false_eq_true, and_true]
    constructor
    · rintro ((h | h) | ⟨x, hx, h1⟩)
      · exact Or.inl h
      · exact Or.inr ⟨w, Or.inl rfl, h.symm⟩
      · exact Or.inr ⟨x, Or.inr hx, h1⟩
    · rintro (h | ⟨x, (rfl | hx), h1⟩)
      · exact Or.inl (Or.inl h)
      · exact Or.inl (Or.inr h1.symm)
      · exact Or.inr ⟨x, hx, h1⟩

/-- The reified index built by `_build_inverted_index_by_length` looks up
exactly as the membership-based `index_lookup` model used by the query
theorems, and a length is present in it exactly when the vocabulary has a
word of that length — validating both modelling choices. -/
theorem build_index_coherent (T : Nat) (words : List Word) (L : Nat)
    (k : Nat × Word) (c : Word) :
    (c ∈ reified_lookup (build_inverted_index_by_length T words) L k
      ↔ c ∈ index_lookup T words L k)
    ∧ ((dict_get (build_inverted_index_by_length T words) L).isSome = true
      ↔ words.any (fun x => x.length == L) = true) := by
  constructor
  · rw [build_inverted_index_by_length, mem_reified_words_fold]
    rw [index_lookup, List.mem_filter, Bool.and_eq_true, beq_iff_eq,
      decide_eq_true_eq]
    have hnil : c ∈ reified_lookup [] L k ↔ False := by
      simp [reified_lookup, dict_get]
    rw [hnil]
    constructor
    · rintro (h | ⟨x, hx, h1, h2, rfl⟩)
      · exact absurd h (by simp)
      · exact ⟨hx, ⟨h1.symm, h2⟩⟩
    · rintro ⟨hc, h1, h2⟩
      exact Or.inr ⟨c, hc, h1.symm, h2, rfl⟩
  · rw [build_inverted_index_by_length, isSome_words_fold]
    rw [List.any_eq_true]
    have hnone : dict_get ([] : List (Nat × List ((Nat × Word) × List Word))) L
        = none := rfl
    rw [hnone]
    simp

theorem foldlM_ok_filter {ε : Type} (T : Nat) (distance : Word → Word → Nat)
    (word : Word) :
    ∀ (l acc : List Word),
      (l.foldlM (fun variations candidate => do
          let d ← (Except.ok (distance word candidate) : Except ε Nat)
          pure (if d ≤ T then variations ++ [candidate] else variations)) acc
        : Except ε (List Word))
        = Except.ok (acc ++ l.filter (fun c => decide (distance word c ≤ T))) := by
  intro l
  induction l with
  | nil =>
    intro acc
    show Except.ok acc = Except.ok (acc ++ [])
    rw [List.append_nil]
  | cons x xs ih =>
    intro acc
    show (xs.foldlM _ (if distance word x ≤ T then acc ++ [x] else acc)
      : Except ε (List Word)) = _
    by_cases h : distance word x ≤ T
    · rw [if_pos h, ih, List.filter_cons, if_pos (by simp [h])]
      simp
    · rw [if_neg h, ih, List.filter_cons, if_neg (by simp [h])]

/-- When the injected distance function never raises, the raising model
returns `ok` of exactly the pure query result. -/
theorem get_word_variationsE_ok {ε : Type} (T : Nat)
    (distance : Word → Word → Nat) (words : List Word) (word : Word) :
    get_word_variationsE T
        (fun a b => (Except.ok (distance a b) : Except ε Nat)) words word
      = Except.ok (get_word_variations T distance words word) := by
  have h := @foldlM_ok_filter ε T distance word
    (examined_candidates T words word) []
  rw [List.nil_append] at h
  exact h

theorem model_test_addition :
    (get_word_variations 1 editDistance
      ["girafe".toList, "lion".toList, "tiger".toList] "giraf".toList).dedup
      = ["girafe".toList]
    ∧ (get_word_variations 1 editDistance
      ["girafe".toList, "lion".toList, "tiger".toList] "grfe".toList).dedup
      = [] := by
  constructor <;> decide

theorem model_test_suppression :
    (get_word_variations 1 editDistance
      ["girafe".toList, "lion".toList, "tiger".toList] "girafes".toList).dedup
      = ["girafe".toList]
    ∧ (get_word_variations 1 editDistance
      ["girafe".toList, "lion".toList, "tiger".toList] "giraafes".toList).dedup
      = [] := by
  constructor <;> decide

theorem model_test_multi :
    (get_word_variations 2 editDistance
      ["girafe".toList, "lion".toList, "tiger".toList] "irafr".toList).dedup
      = ["girafe".toList]
    ∧ (get_word_variations 2 editDistance
      ["girafe".toList, "lion".toList, "tiger".toList] "giirofr".toList).dedup
      = [] := by
  constructor <;> decide

theorem model_test_special_cases :
    (get_word_variations 0 editDistance
      ["girafe".toList, "lion".toList, "tiger".toList] "girafe".toList).dedup
      = ["girafe".toList]
    ∧ (get_word_variations 0 editDistance
      ["girafe".toList, "lion".toList, "tiger".toList] "giraf".toList).dedup = []
    ∧ (get_word_variations 1 editDistance [] "giraf".toList).dedup = []
    ∧ (get_word_variations 1 editDistance
      ["girafe".toList, "lion".toList, "tiger".toList] "".toList).dedup = []
    ∧ (get_word_variations 1 editDistance
      ["girafe".toList, "lion".toList, "tiger".toList, "a".toList]
      "".toList).dedup = ["a".toList] := by
  refine ⟨?_, ?_, ?_, ?_, ?_⟩ <;> decide
